import Mathlib

/-!
Verification of the esp-parser repository against its specification.

The development shallowly embeds the relevant code:
* the dashboard API routes and hooks (TypeScript under `dashboard-ui/` and
  `frontend/`) are translated function by function;
* the acquisition/merge pipeline (the Python core described by the spec's
  §3–§4.5) is modelled from the spec where its source is not part of the
  repository snapshot, with each such definition marked `Modelled from the
  spec:` in its doc comment.

Machine integers are modelled as `Nat`/`Int`, prices as `ℚ`, JavaScript
strings as `String` or `List Char` as convenient, and fallible operations as
`Option`/`Except`.
-/

namespace EspParser

/-! ## Thoughts endpoint (`dashboard-ui/app/api/jobs/[jobId]/thoughts/route.ts`)

The route reads the job's JSONL event log, splits it into (nonempty) lines,
slices `lines.slice(after, after + limit)`, parses each line with
`JSON.parse` (a line that fails to parse becomes `null` and is dropped by
`.filter(Boolean)`), and answers with the parsed events, the total line
count, and `next_offset = after + newLines.length`.

We model the line list of the log as a `List String` and JSON parsing (plus
the route's falsy-value drop) as an arbitrary function
`parse : String → Option E`. -/

structure ThoughtsResponse (E : Type) where
  thoughts : List E
  total_lines : Nat
  next_offset : Nat

/-- Embedding of the `GET` handler of
`dashboard-ui/app/api/jobs/[jobId]/thoughts/route.ts` (lines 46–64): slice
the line list at `[after, after+limit)`, keep the lines that parse, and
report `next_offset = after + newLines.length` (raw line count, not parsed
count). -/
def thoughtsGET {E : Type} (parse : String → Option E) (log : List String)
    (after limit : Nat) : ThoughtsResponse E :=
  let newLines := (log.drop after).take limit
  { thoughts := newLines.filterMap parse
    total_lines := log.length
    next_offset := after + newLines.length }

/-- A poller that always resumes from the `next_offset` returned by the
endpoint, starting at a given offset, collecting every batch of events in
order.  `fuel` bounds the number of polls; `log.length` polls always
suffice when `limit > 0`. -/
def pollAll {E : Type} (parse : String → Option E) (log : List String)
    (limit : Nat) : Nat → Nat → List E
  | _, 0 => []
  | after, fuel + 1 =>
    if after < log.length then
      let r := thoughtsGET parse log after limit
      r.thoughts ++ pollAll parse log limit r.next_offset fuel
    else []

theorem take_eq_filterMap_range {α : Type} (l : List α) (n : Nat) :
    l.take n = (List.range n).filterMap (fun k => l[k]?) := by
  induction n with
  | zero => simp
  | succ n ih =>
      rw [List.range_succ, List.filterMap_append, ← ih, List.take_succ]
      cases h : l[n]? <;> simp [h]

theorem pollAll_correct {E : Type} (parse : String → Option E)
    (log : List String) (limit : Nat) (hlim : 0 < limit) :
    ∀ fuel after, log.length - after ≤ fuel →
      pollAll parse log limit after fuel = (log.drop after).filterMap parse := by
  intro fuel
  induction fuel with
  | zero =>
      intro after h
      have hle : log.length ≤ after := by omega
      rw [pollAll, List.drop_eq_nil_of_le hle]
      simp
  | succ fuel ih =>
      intro after h
      rw [pollAll]
      by_cases hlt : after < log.length
      · rw [if_pos hlt]
        have hlen : ((log.drop after).take limit).length
            = min limit (log.length - after) := by
          simp [List.length_take]
        have hnext : (thoughtsGET parse log after limit).next_offset
            = after + min limit (log.length - after) := by
          simp [thoughtsGET, hlen]
        have hdrop : log.drop (after + min limit (log.length - after))
            = (log.drop after).drop limit := by
          rcases le_or_lt limit (log.length - after) with hc | hc
          · rw [min_eq_left hc, List.drop_drop, Nat.add_comm]
          · have h1 : log.length ≤ after + min limit (log.length - after) := by
              omega
            have h2 : (log.drop after).length ≤ limit := by
              simp only [List.length_drop]; omega
            rw [List.drop_eq_nil_of_le h1, List.drop_eq_nil_of_le h2]
        have hrec := ih (after + min limit (log.length - after)) (by omega)
        show (thoughtsGET parse log after limit).thoughts
            ++ pollAll parse log limit
                (thoughtsGET parse log after limit).next_offset fuel
            = (log.drop after).filterMap parse
        rw [hnext, hrec, hdrop]
        show ((log.drop after).take limit).filterMap parse
            ++ ((log.drop after).drop limit).filterMap parse
            = (log.drop after).filterMap parse
        rw [← List.filterMap_append, List.take_append_drop]
      · rw [if_neg hlt]
        have hle : log.length ≤ after := by omega
        rw [List.drop_eq_nil_of_le hle]
        simp

/-- C1: the thoughts endpoint returns exactly the (parseable) events at line
positions `after .. after+limit-1` in log order; on any in-range read the
returned `next_offset` strictly advances and never overshoots the log, past
the end it is a fixpoint returning no events, and a poller that always
resumes from the returned `next_offset` starting at offset `0` receives
every event of the log exactly once, in order — invalid (unparseable) lines
are skipped without disturbing the cursor. -/
theorem thoughts_cursor_exactly_once {E : Type} (parse : String → Option E)
    (log : List String) (after limit : Nat) (hlim : 0 < limit) :
    (thoughtsGET parse log after limit).thoughts
        = (List.range limit).filterMap (fun k => (log[after + k]?).bind parse)
    ∧ (after < log.length →
        after < (thoughtsGET parse log after limit).next_offset
        ∧ (thoughtsGET parse log after limit).next_offset ≤ log.length)
    ∧ (log.length ≤ after →
        (thoughtsGET parse log after limit).next_offset = after
        ∧ (thoughtsGET parse log after limit).thoughts = [])
    ∧ pollAll parse log limit 0 log.length = log.filterMap parse := by
  refine ⟨?_, ?_, ?_, ?_⟩
  · show ((log.drop after).take limit).filterMap parse = _
    rw [take_eq_filterMap_range, List.filterMap_filterMap]
    congr 1
    funext k
    rw [List.getElem?_drop]
  · intro hlt
    have hlen : ((log.drop after).take limit).length
        = min limit (log.length - after) := by
      simp [List.length_take]
    constructor
    · show after < after + ((log.drop after).take limit).length
      rw [hlen]; omega
    · show after + ((log.drop after).take limit).length ≤ log.length
      rw [hlen]; omega
  · intro hle
    constructor
    · show after + ((log.drop after).take limit).length = after
      rw [List.drop_eq_nil_of_le hle]
      simp
    · show ((log.drop after).take limit).filterMap parse = []
      rw [List.drop_eq_nil_of_le hle]
      simp
  · exact pollAll_correct parse log limit hlim log.length 0 (by omega)

/-- Concrete parse function for the C1 witness: the line "bad" models a
stored line that is not valid JSON. -/
def demoParse : String → Option String :=
  fun s => if s = "bad" then none else some s

theorem thoughts_cursor_exactly_once_witness :
    pollAll demoParse ["a", "bad", "b"] 2 0 3
      = (["a", "bad", "b"] : List String).filterMap demoParse :=
  (thoughts_cursor_exactly_once demoParse ["a", "bad", "b"] 1 2
    (by decide)).2.2.2

/-! ## Dashboard auth (`frontend/middleware.ts`, `frontend/app/api/auth/login/route.ts`)

JavaScript strings are modelled as `List Char`.  `middleware` (lines 36–66)
splits the cookie value on `":"`, takes `parts[0]` as the timestamp string
and `parts[1]` as the hash, runs `parseInt(timestampStr, 10)`, rejects when
`now - timestamp > 86400000` (with a `NaN` timestamp this comparison is
false, so the expiry check passes), then rejects unless the hash part
exists and has length ≥ 16.  The shared `AUTH_TOKEN_SECRET` is never read:
the environment is a parameter of the model only so that independence from
it can be stated. -/

/-- Model of `String.prototype.split(sep)` for a one-character separator. -/
def splitOnChar (sep : Char) : List Char → List (List Char)
  | [] => [[]]
  | c :: rest =>
    if c = sep then [] :: splitOnChar sep rest
    else
      match splitOnChar sep rest with
      | [] => [[c]]
      | s :: ss => (c :: s) :: ss

/-- Value of the longest digit run at the front of the string, `none` when
there is no leading digit (JS `NaN`). -/
def digitsPrefixVal (cs : List Char) : Option Nat :=
  let ds := cs.takeWhile (fun c => c.isDigit)
  if ds.isEmpty then none
  else some (ds.foldl (fun n c => 10 * n + (c.toNat - 48)) 0)

/-- Model of JavaScript `parseInt(s, 10)`: skip leading whitespace, read an
optional sign and then a digit run, ignoring trailing garbage; `none`
models `NaN`. -/
def parseInt10 (cs : List Char) : Option Int :=
  let body := cs.dropWhile (fun c => c.isWhitespace)
  match body with
  | '-' :: rest => (digitsPrefixVal rest).map (fun n => -(n : Int))
  | '+' :: rest => (digitsPrefixVal rest).map (fun n => (n : Int))
  | _ => (digitsPrefixVal body).map (fun n => (n : Int))

/-- Embedding of the token-validation block of `frontend/middleware.ts`
(lines 36–66): `true` means `NextResponse.next()` (request accepted),
`false` means redirect to the login page. -/
def validateCookie (now : Int) (cookie : List Char) : Bool :=
  let parts := splitOnChar ':' cookie
  let timestampStr := parts.headD []
  let hashPart := parts[1]?
  let expired :=
    match parseInt10 timestampStr with
    | some t => decide (86400000 < now - t)
    | none => false
  if expired then false
  else
    match hashPart with
    | none => false
    | some hs => decide (16 ≤ hs.length)

/-- The server environment as the middleware sees it.  `authTokenSecret`
models `process.env.AUTH_TOKEN_SECRET`; the middleware never reads it. -/
structure ServerEnv where
  authTokenSecret : List Char

/-- Embedding of the accept/reject decision of `middleware` for a protected
path: reject when the `dashboard_auth` cookie is absent, otherwise validate
its value. -/
def middlewareAccept (_env : ServerEnv) (now : Int)
    (cookie : Option (List Char)) : Bool :=
  match cookie with
  | none => false
  | some v => validateCookie now v

/-- Embedding of `generateToken` from
`frontend/app/api/auth/login/route.ts` (lines 7–18), with the SHA-256 hex
digest abstracted as a function `sha256Hex`; a genuine digest produces 64
hex characters. -/
def generateToken (sha256Hex : List Char → List Char) (secret : List Char)
    (timestamp : Int) : List Char :=
  let tsChars := (toString timestamp).data
  tsChars ++ ':' :: sha256Hex (tsChars ++ ':' :: secret)

theorem splitOnChar_append {sep : Char} :
    ∀ (a b : List Char), sep ∉ a →
      splitOnChar sep (a ++ sep :: b) = a :: splitOnChar sep b := by
  intro a
  induction a with
  | nil =>
      intro b _
      show splitOnChar sep (sep :: b) = [] :: splitOnChar sep b
      rw [splitOnChar, if_pos rfl]
  | cons c a ih =>
      intro b hmem
      have hc : c ≠ sep := fun h => hmem (h ▸ List.mem_cons_self c a)
      have ha : sep ∉ a := fun h => hmem (List.mem_cons_of_mem c h)
      show splitOnChar sep (c :: (a ++ sep :: b)) = (c :: a) :: splitOnChar sep b
      rw [splitOnChar, if_neg hc, ih b ha]

theorem splitOnChar_of_not_mem {sep : Char} :
    ∀ (a : List Char), sep ∉ a → splitOnChar sep a = [a] := by
  intro a
  induction a with
  | nil => intro _; rfl
  | cons c a ih =>
      intro hmem
      have hc : c ≠ sep := fun h => hmem (h ▸ List.mem_cons_self c a)
      have ha : sep ∉ a := fun h => hmem (List.mem_cons_of_mem c h)
      rw [splitOnChar, if_neg hc, ih ha]

/-- The forged cookie used in C8: a plausible millisecond timestamp and a
16-character hash part (a genuine SHA-256 hex digest has 64 characters). -/
def forgedCookie : List Char := "1700000000000:aaaaaaaaaaaaaaaa".data

/-- C8: the middleware's accept/reject decision is independent of
`AUTH_TOKEN_SECRET` (two-run noninterference); it accepts any cookie
`timestamp:hash` whose timestamp is at most 24 hours old and whose hash
part has at least 16 characters; and a concrete such cookie is accepted
although `generateToken` can never produce it (its hash part is 16
characters, a genuine token's is 64). -/
theorem middleware_secret_noninterference (e1 e2 : ServerEnv)
    (now ts : Int) (tsStr hs : List Char)
    (hparse : parseInt10 tsStr = some ts)
    (htsc : ':' ∉ tsStr) (hhc : ':' ∉ hs)
    (hfresh : now - ts ≤ 86400000) (hlen : 16 ≤ hs.length) :
    (∀ (n : Int) (c : Option (List Char)),
        middlewareAccept e1 n c = middlewareAccept e2 n c)
    ∧ middlewareAccept e1 now (some (tsStr ++ ':' :: hs)) = true
    ∧ (∀ (sha256Hex : List Char → List Char),
        (∀ s, (sha256Hex s).length = 64) →
        ∀ (secret : List Char) (t : Int),
          generateToken sha256Hex secret t ≠ forgedCookie)
    ∧ middlewareAccept e1 1700000000000 (some forgedCookie) = true := by
  refine ⟨fun _ _ => rfl, ?_, ?_,
    show validateCookie 1700000000000 forgedCookie = true by decide⟩
  · show validateCookie now (tsStr ++ ':' :: hs) = true
    unfold validateCookie
    rw [splitOnChar_append tsStr hs htsc, splitOnChar_of_not_mem hs hhc]
    simp only [List.headD_cons, hparse]
    have hexp : decide (86400000 < now - ts) = false := by
      simp only [decide_eq_false_iff_not, not_lt]
      exact hfresh
    rw [hexp]
    simp [hlen]
  · intro sha256Hex hdig secret t heq
    have hlen1 : (generateToken sha256Hex secret t).length
        = (toString t).data.length + 1
          + (sha256Hex ((toString t).data ++ ':' :: secret)).length := by
      unfold generateToken
      simp [List.length_append]
      omega
    have hlen2 : forgedCookie.length = 30 := by decide
    rw [heq, hlen2, hdig] at hlen1
    omega

theorem middleware_secret_noninterference_witness :
    middlewareAccept ⟨"alpha".data⟩ 90000000
      (some ("89999999".data ++ ':' :: "0123456789abcdef".data)) = true :=
  (middleware_secret_noninterference ⟨"alpha".data⟩ ⟨"beta".data⟩
    90000000 89999999 "89999999".data "0123456789abcdef".data
    (by decide) (by decide) (by decide) (by decide) (by decide)).2.1

/-! ## Jobs listing (`dashboard-ui/app/api/jobs/route.ts`)

The route returns `{jobs: []}` when the output directory does not exist;
otherwise it lists the directory (a throw here is the only 500), keeps the
files named `job_*_state.json`, reads and JSON-parses each one (a throw in
either step yields `null`, removed by `.filter(Boolean)`), and sorts the
survivors by `new Date(started_at).getTime()` descending with the stable
`Array.prototype.sort`.  `new Date(s).getTime()` is abstracted as a
function `dateMs : String → Int`. -/

/-- One job record as served by the API.  The route copies every snapshot
field verbatim into the response; the fields not used by any claim
(platform, item counters, feature flags, artifact links) are elided. -/
structure JobRecord where
  id : String
  status : String
  progress : ℚ
  started_at : String
  updated_at : String
  errors : List String
deriving DecidableEq, Repr

/-- State of the `output/` directory as the route observes it:
whether it exists, the result of `readdirSync` (`Except` models a throw),
and the combined `readFileSync` + `JSON.parse` of each file name
(`none` models a throw in either step). -/
structure OutputDir where
  dirExists : Bool
  listing : Except Unit (List String)
  readParse : String → Option JobRecord

structure JobsResponse where
  status : Nat
  jobs : List JobRecord

/-- The route's file filter: `f.startsWith("job_") && f.endsWith("_state.json")`. -/
def isStateFile (f : String) : Bool :=
  f.startsWith "job_" && f.endsWith "_state.json"

/-- Sort comparator of the route: `(a, b) => dateB - dateA`, i.e. `a` comes
no later than `b` exactly when `dateMs b ≤ dateMs a` (descending). -/
def startedDescLe (dateMs : String → Int) (a b : JobRecord) : Bool :=
  decide (dateMs b.started_at ≤ dateMs a.started_at)

theorem startedDescLe_trans (dateMs : String → Int) :
    ∀ (a b c : JobRecord), startedDescLe dateMs a b → startedDescLe dateMs b c →
      startedDescLe dateMs a c := by
  intro a b c h1 h2
  simp only [startedDescLe, decide_eq_true_eq] at h1 h2 ⊢
  exact le_trans h2 h1

theorem startedDescLe_total (dateMs : String → Int) :
    ∀ (a b : JobRecord), startedDescLe dateMs a b || startedDescLe dateMs b a := by
  intro a b
  simp only [startedDescLe, Bool.or_eq_true, decide_eq_true_eq]
  exact le_total (dateMs b.started_at) (dateMs a.started_at)

/-- Embedding of the `GET` handler of `dashboard-ui/app/api/jobs/route.ts`
(lines 28–84). -/
def jobsGET (dateMs : String → Int) (dir : OutputDir) : JobsResponse :=
  if !dir.dirExists then ⟨200, []⟩
  else
    match dir.listing with
    | .error _ => ⟨500, []⟩
    | .ok files =>
      let stateFiles := files.filter isStateFile
      let parsed := stateFiles.filterMap dir.readParse
      ⟨200, parsed.mergeSort (startedDescLe dateMs)⟩

/-- C9: the jobs listing never fails because of one bad job file — a
missing directory yields `200` with an empty list; with a readable
directory the response is `200` and contains exactly the parseable
`job_*_state.json` files (unreadable/unparseable ones silently dropped),
sorted by `started_at` descending; and a non-200 response happens only
when listing the directory itself throws. -/
theorem jobs_listing_resilient (dateMs : String → Int) (dir : OutputDir) :
    (dir.dirExists = false → jobsGET dateMs dir = ⟨200, []⟩)
    ∧ (∀ e, dir.listing = .error e → jobsGET dateMs dir = ⟨500, []⟩
        ∨ jobsGET dateMs dir = ⟨200, []⟩)
    ∧ (∀ files, dir.dirExists = true → dir.listing = .ok files →
        (jobsGET dateMs dir).status = 200
        ∧ (jobsGET dateMs dir).jobs.Perm
            ((files.filter isStateFile).filterMap dir.readParse)
        ∧ (jobsGET dateMs dir).jobs.Pairwise
            (fun a b => dateMs b.started_at ≤ dateMs a.started_at))
    ∧ ((jobsGET dateMs dir).status ≠ 200 →
        dir.dirExists = true ∧ ∃ e, dir.listing = .error e) := by
  refine ⟨?_, ?_, ?_, ?_⟩
  · intro h
    simp [jobsGET, h]
  · intro e he
    by_cases hd : dir.dirExists
    · left; simp [jobsGET, hd, he]
    · right; simp [jobsGET, Bool.of_not_eq_true hd]
  · intro files hd hf
    have hgoal : jobsGET dateMs dir
        = ⟨200, ((files.filter isStateFile).filterMap dir.readParse).mergeSort
            (startedDescLe dateMs)⟩ := by
      simp [jobsGET, hd, hf]
    rw [hgoal]
    refine ⟨rfl, List.mergeSort_perm _ _, ?_⟩
    have hs := List.sorted_mergeSort
      (startedDescLe_trans dateMs) (startedDescLe_total dateMs)
      ((files.filter isStateFile).filterMap dir.readParse)
    exact hs.imp (fun h => by
      simpa [startedDescLe, decide_eq_true_eq] using h)
  · intro hne
    by_cases hd : dir.dirExists
    · refine ⟨hd, ?_⟩
      cases hl : dir.listing with
      | error e => exact ⟨e, rfl⟩
      | ok files => exact absurd (by simp [jobsGET, hd, hl]) hne
    · exact absurd (by simp [jobsGET, Bool.of_not_eq_true hd]) hne

/-- Concrete directory for the C9 witness: one parseable state file, one
corrupt state file, one unrelated file. -/
def demoDir : OutputDir where
  dirExists := true
  listing := .ok ["job_1_state.json", "job_2_state.json", "notes.txt"]
  readParse := fun f =>
    if f = "job_1_state.json" then
      some ⟨"1", "completed", 100, "2024-01-02", "2024-01-02", []⟩
    else none

theorem jobs_listing_resilient_witness :
    (jobsGET (fun _ => 0) demoDir).jobs.Perm
      ((["job_1_state.json", "job_2_state.json", "notes.txt"].filter
          isStateFile).filterMap demoDir.readParse) :=
  ((jobs_listing_resilient (fun _ => 0) demoDir).2.2.1
    ["job_1_state.json", "job_2_state.json", "notes.txt"] rfl rfl).2.1

/-! ## Active-job selection (`dashboard-ui/hooks/useActiveJob.ts`)

`fetchJobs` (lines 41–79) takes the jobs in API order, finds the first one
whose status is outside the terminal set, marks it stale when its
`updated_at` is more than two minutes before `now`, and reports it as the
active job only when it is not stale. -/

/-- The hook's terminal set (lines 51–56): `awaiting_qa` is included, so it
is treated as terminal. -/
def terminalStates : List String :=
  ["completed", "error", "partial_success", "awaiting_qa"]

/-- Embedding of the selection logic of `fetchJobs`: returns the reported
active job (if any) and the stale flag. -/
def selectActiveJob (dateMs : String → Int) (now : Int)
    (jobs : List JobRecord) : Option JobRecord × Bool :=
  let nonTerminalJob := jobs.find? (fun j => !(terminalStates.contains j.status))
  let jobIsStale :=
    match nonTerminalJob with
    | some j => decide (120000 < now - dateMs j.updated_at)
    | none => false
  let active :=
    match nonTerminalJob with
    | some j => if jobIsStale then none else some j
    | none => none
  (active, jobIsStale)

theorem find_append_first {α : Type} (p : α → Bool) (post : List α) (j : α)
    (hj : p j = true) :
    ∀ pre : List α, (∀ k ∈ pre, p k = false) →
      (pre ++ j :: post).find? p = some j := by
  intro pre
  induction pre with
  | nil => intro _; simp [List.find?_cons, hj]
  | cons c pre ih =>
      intro hpre
      have hc : p c = false := hpre c (List.mem_cons_self c pre)
      have hrest : ∀ k ∈ pre, p k = false :=
        fun k hk => hpre k (List.mem_cons_of_mem c hk)
      show ((c :: (pre ++ j :: post)).find? p) = some j
      rw [List.find?_cons, hc]
      exact ih hrest

/-- C10: on every poll the hook picks the first job in API order whose
status lies outside `{completed, error, partial_success, awaiting_qa}`
(earlier terminal jobs are skipped); if that job was last updated more
than two minutes before `now` the active job is `null` and the stale flag
is set, otherwise it is reported active and not stale; a list with only
terminal jobs yields no active job; and `awaiting_qa` is in the terminal
set. -/
theorem active_job_selection (dateMs : String → Int) (now : Int)
    (pre post : List JobRecord) (j : JobRecord)
    (hpre : ∀ k ∈ pre, terminalStates.contains k.status = true)
    (hj : terminalStates.contains j.status = false) :
    (selectActiveJob dateMs now (pre ++ j :: post)
        = if 120000 < now - dateMs j.updated_at then (none, true)
          else (some j, false))
    ∧ selectActiveJob dateMs now pre = (none, false)
    ∧ terminalStates.contains "awaiting_qa" = true := by
  have hj1 : (fun k : JobRecord => !(terminalStates.contains k.status)) j
      = true := by
    show (!(terminalStates.contains j.status)) = true
    rw [hj]
    rfl
  have hfind : (pre ++ j :: post).find?
      (fun k => !(terminalStates.contains k.status)) = some j := by
    refine find_append_first _ post j hj1 pre ?_
    intro k hk
    show (!(terminalStates.contains k.status)) = false
    rw [hpre k hk]
    rfl
  have hnone : pre.find? (fun k => !(terminalStates.contains k.status)) = none := by
    rw [List.find?_eq_none]
    intro k hk
    show ¬((!(terminalStates.contains k.status)) = true)
    rw [hpre k hk]
    decide
  refine ⟨?_, ?_, by decide⟩
  · simp only [selectActiveJob]
    rw [hfind]
    by_cases hstale : 120000 < now - dateMs j.updated_at
    · simp [hstale]
    · simp [hstale]
  · simp only [selectActiveJob]
    rw [hnone]

/-- Concrete jobs for the C10 witness: a completed job followed by a
running one whose `updated_at` is fresh. -/
def demoTerminalJob : JobRecord :=
  ⟨"1", "completed", 100, "2024-01-01", "2024-01-01", []⟩

def demoRunningJob : JobRecord :=
  ⟨"2", "esp_parsing_products", 40, "2024-01-02", "2024-01-02", []⟩

theorem active_job_selection_witness :
    selectActiveJob (fun _ => 0) 1000 [demoTerminalJob, demoRunningJob]
      = (some demoRunningJob, false) := by
  have h := (active_job_selection (fun _ => 0) 1000 [demoTerminalJob] []
    demoRunningJob (by decide) (by decide)).1
  simpa using h

/-! ## Merge & Normalize Engine

The Python core (`unified_schema.py`, `output_normalizer.py`,
`orchestrator.py:merge_presentation_and_product_data()`) is not part of
this repository snapshot — only the dashboard that displays its output is.
The definitions in this section are therefore modelled from the spec
(§3 data model, §4.4 merge algorithm), as their doc comments state. -/

/-- Modelled from the spec: one quantity price-break of a `UnifiedProduct`
(`unified_schema.py`, missing from the snapshot) — quantity, independently
optional `sell_price`/`net_cost`/`catalog_price`, and the computed
`margin`/`margin_percent` fields. -/
structure PriceBreak where
  quantity : Int
  sell_price : Option ℚ
  net_cost : Option ℚ
  catalog_price : Option ℚ
  margin : Option ℚ
  margin_percent : Option ℚ
deriving DecidableEq, Repr

/-- Modelled from the spec: §4.4 rule 4 — `margin = sell_price − net_cost`
and `margin_percent = margin / sell_price × 100`, only when both operands
are present and `sell_price` is non-zero; otherwise both `null`. -/
def computeMargin : Option ℚ → Option ℚ → Option ℚ × Option ℚ
  | some s, some c =>
      if s = 0 then (none, none)
      else (some (s - c), some ((s - c) / s * 100))
  | _, _ => (none, none)

/-- Modelled from the spec: the engine's rewrite of one stored break that
fills in the computed margin fields from the stored operands. -/
def applyMarginBreak (b : PriceBreak) : PriceBreak :=
  let m := computeMargin b.sell_price b.net_cost
  { b with margin := m.1, margin_percent := m.2 }

/-- Modelled from the spec: one (quantity, price) pair as extracted from a
source document. -/
structure RawBreakEntry where
  quantity : Int
  price : ℚ
deriving DecidableEq, Repr

/-- Modelled from the spec: a presentation-level `RawProductFragment`
(client-facing sell prices, name, categories). -/
structure PresentationFragment where
  ident : String
  name : String
  description : String
  categories : List String
  sellBreaks : List RawBreakEntry
deriving DecidableEq, Repr

/-- Modelled from the spec: a distributor-level `RawProductFragment`
(cost prices, catalog prices, vendor data). -/
structure DistributorFragment where
  ident : String
  name : String
  description : String
  vendorName : String
  vendorWebsite : String
  costBreaks : List RawBreakEntry
  catalogBreaks : List RawBreakEntry
deriving DecidableEq, Repr

/-- Modelled from the spec: the canonical `UnifiedProduct` output record
(fields not touched by any claim are elided). -/
structure UnifiedProduct where
  ident : String
  name : String
  secondary_name : Option String
  description : String
  categories : List String
  vendor_name : String
  vendor_website : String
  breaks : List PriceBreak
deriving DecidableEq, Repr

/-- First price of the given quantity tier in a raw break list. -/
def lookupQty (q : Int) (l : List RawBreakEntry) : Option ℚ :=
  (l.find? (fun e => e.quantity == q)).map (fun e => e.price)

/-- Ascending insertion used to order quantities. -/
def insertAsc (q : Int) : List Int → List Int
  | [] => [q]
  | x :: xs => if q ≤ x then q :: x :: xs else x :: insertAsc q xs

/-- Insertion sort of quantity thresholds, ascending. -/
def sortQuantities (l : List Int) : List Int :=
  l.foldr insertAsc []

/-- Keep a strictly increasing subsequence above `floor`: the first pass
of break-list construction that drops duplicate quantities and (with
`floor = -1`) negative quantities. -/
def keepAbove (floor : Int) : List Int → List Int
  | [] => []
  | q :: rest => if floor < q then q :: keepAbove q rest else keepAbove floor rest

/-- Modelled from the spec: the ordered, duplicate-free, non-negative list
of quantity tiers appearing in either fragment of a product. -/
def ascendingQuantities (p : PresentationFragment) (d : DistributorFragment) :
    List Int :=
  let qs := (p.sellBreaks ++ d.costBreaks ++ d.catalogBreaks).map
    (fun e => e.quantity)
  keepAbove (-1) (sortQuantities qs)

/-- Modelled from the spec: the stored break for one quantity tier —
sell price from the presentation fragment, net cost and catalog price from
the distributor fragment, margins not yet computed. -/
def buildBreak (p : PresentationFragment) (d : DistributorFragment)
    (q : Int) : PriceBreak :=
  { quantity := q
    sell_price := lookupQty q p.sellBreaks
    net_cost := lookupQty q d.costBreaks
    catalog_price := lookupQty q d.catalogBreaks
    margin := none
    margin_percent := none }

/-- Modelled from the spec: the full break list of a merged product —
construct one break per tier, then rewrite each with the computed margin
fields. -/
def mergeBreaks (p : PresentationFragment) (d : DistributorFragment) :
    List PriceBreak :=
  ((ascendingQuantities p d).map (buildBreak p d)).map applyMarginBreak

/-- Modelled from the spec: §4.4 edge-case policy — identifiers are
compared as case-normalized strings. -/
def normalizeIdent (s : String) : String := s.toLower

/-- Modelled from the spec: §4.4 rule 1 — merge one presentation fragment
with one distributor fragment: distributor fields take precedence for
item identity, vendor and cost data; presentation fields for client-facing
sell price and categories; the presentation name is retained as a
secondary field when the two differ. -/
def mergeFragments (p : PresentationFragment) (d : DistributorFragment) :
    UnifiedProduct :=
  { ident := normalizeIdent d.ident
    name := d.name
    secondary_name := if p.name ≠ d.name then some p.name else none
    description := d.description
    categories := p.categories
    vendor_name := d.vendorName
    vendor_website := d.vendorWebsite
    breaks := mergeBreaks p d }

theorem computeMargin_spec (so co : Option ℚ) :
    ((computeMargin so co).1 = none ↔ so = none ∨ co = none ∨ so = some 0)
    ∧ ((computeMargin so co).2 = none ↔ so = none ∨ co = none ∨ so = some 0)
    ∧ (∀ s c, so = some s → co = some c → s ≠ 0 →
        (computeMargin so co).1 = some (s - c)
        ∧ (computeMargin so co).2 = some ((s - c) / s * 100)) := by
  cases so with
  | none => simp [computeMargin]
  | some s =>
      cases co with
      | none => simp [computeMargin]
      | some c =>
          by_cases h : s = 0
          · subst h
            simp [computeMargin]
          · simp [computeMargin, h]

/-- C2: in every break of every merged product, `margin` and
`margin_percent` equal `sell_price − net_cost` and
`margin / sell_price × 100` exactly when both operands are present and
`sell_price ≠ 0`, and each is `null` iff `sell_price` is `null`,
`net_cost` is `null`, or `sell_price` is zero — never a divide-by-zero,
never a fabricated zero. -/
theorem margin_fields_null_iff (p : PresentationFragment)
    (d : DistributorFragment) (b : PriceBreak)
    (hb : b ∈ (mergeFragments p d).breaks) :
    (∀ s c, b.sell_price = some s → b.net_cost = some c → s ≠ 0 →
        b.margin = some (s - c) ∧ b.margin_percent = some ((s - c) / s * 100))
    ∧ (b.margin = none ↔
        b.sell_price = none ∨ b.net_cost = none ∨ b.sell_price = some 0)
    ∧ (b.margin_percent = none ↔
        b.sell_price = none ∨ b.net_cost = none ∨ b.sell_price = some 0) := by
  have hmem : b ∈ (((ascendingQuantities p d).map (buildBreak p d)).map
      applyMarginBreak) := hb
  obtain ⟨b0, _, rfl⟩ := List.mem_map.mp hmem
  have hsell : (applyMarginBreak b0).sell_price = b0.sell_price := rfl
  have hcost : (applyMarginBreak b0).net_cost = b0.net_cost := rfl
  have hmar : (applyMarginBreak b0).margin
      = (computeMargin b0.sell_price b0.net_cost).1 := rfl
  have hpct : (applyMarginBreak b0).margin_percent
      = (computeMargin b0.sell_price b0.net_cost).2 := rfl
  obtain ⟨h1, h2, h3⟩ := computeMargin_spec b0.sell_price b0.net_cost
  refine ⟨?_, ?_, ?_⟩
  · intro s c hs hc hs0
    rw [hsell] at hs
    rw [hcost] at hc
    rw [hmar, hpct]
    exact h3 s c hs hc hs0
  · rw [hmar, hsell, hcost]
    exact h1
  · rw [hpct, hsell, hcost]
    exact h2

/-- Concrete merge input for the C2 witness. -/
def demoPresFragment : PresentationFragment :=
  ⟨"CPN-550123", "Koozie Can Cooler", "A can cooler", ["Drinkware"],
    [⟨12, 10⟩, ⟨48, 9⟩]⟩

def demoDistFragment : DistributorFragment :=
  ⟨"CPN-550123", "KOOZIE® Can Kooler", "Foam can cooler",
    "Koozie Group", "kooziegroup.com", [⟨12, 6⟩], [⟨12, 12⟩]⟩

/-- The quantity-12 break of the demo merge: sell 10, cost 6, margin 4,
margin percent 40. -/
def demoMergedBreak : PriceBreak :=
  ⟨12, some 10, some 6, some 12, some 4, some 40⟩

theorem margin_fields_null_iff_witness :
    demoMergedBreak.margin = none ↔
      demoMergedBreak.sell_price = none ∨ demoMergedBreak.net_cost = none
        ∨ demoMergedBreak.sell_price = some 0 :=
  (margin_fields_null_iff demoPresFragment demoDistFragment demoMergedBreak
    (by
      simp [mergeFragments, mergeBreaks, ascendingQuantities,
        sortQuantities, insertAsc, keepAbove, buildBreak, applyMarginBreak,
        computeMargin, lookupQty, demoPresFragment, demoDistFragment,
        demoMergedBreak]
      norm_num)).2.1

theorem keepAbove_spec :
    ∀ (l : List Int) (floor : Int),
      (∀ q ∈ keepAbove floor l, floor < q)
      ∧ (keepAbove floor l).Chain' (· < ·) := by
  intro l
  induction l with
  | nil =>
      intro floor
      constructor
      · intro x hx
        simp [keepAbove] at hx
      · simp [keepAbove]
  | cons q rest ih =>
      intro floor
      by_cases h : floor < q
      · rw [keepAbove, if_pos h]
        obtain ⟨hmem, hchain⟩ := ih q
        constructor
        · intro x hx
          rcases List.mem_cons.mp hx with rfl | hx2
          · exact h
          · exact lt_trans h (hmem x hx2)
        · rw [List.chain'_cons']
          exact ⟨fun y hy => hmem y (List.mem_of_mem_head? hy), hchain⟩
      · rw [keepAbove, if_neg h]
        exact ih floor

/-- The spec's break-list invariant: every quantity is non-negative and
quantities are strictly increasing (sorted ascending, no duplicates). -/
def BreaksInvariant (bs : List PriceBreak) : Prop :=
  (∀ b ∈ bs, 0 ≤ b.quantity)
  ∧ bs.Chain' (fun a b => a.quantity < b.quantity)

/-- C3: every merged product's break list carries only non-negative
quantities, strictly increasing; and the invariant is preserved by the
margin-rewrite pass, the one operation that rewrites a stored break
list. -/
theorem break_list_invariant (p : PresentationFragment)
    (d : DistributorFragment) (bs : List PriceBreak)
    (hbs : BreaksInvariant bs) :
    BreaksInvariant (mergeFragments p d).breaks
    ∧ BreaksInvariant (bs.map applyMarginBreak) := by
  constructor
  · have hq := keepAbove_spec
      (sortQuantities ((p.sellBreaks ++ d.costBreaks ++ d.catalogBreaks).map
        (fun e => e.quantity))) (-1)
    constructor
    · intro b hb
      obtain ⟨b0, hb0, rfl⟩ := List.mem_map.mp hb
      obtain ⟨q0, hq0, rfl⟩ := List.mem_map.mp hb0
      have : (-1 : Int) < q0 := hq.1 q0 hq0
      show 0 ≤ q0
      omega
    · show ((((ascendingQuantities p d).map (buildBreak p d)).map
        applyMarginBreak).Chain' (fun a b => a.quantity < b.quantity))
      rw [List.chain'_map, List.chain'_map]
      exact hq.2
  · constructor
    · intro b hb
      obtain ⟨b0, hb0, rfl⟩ := List.mem_map.mp hb
      exact hbs.1 b0 hb0
    · rw [List.chain'_map]
      exact hbs.2

theorem break_list_invariant_witness :
    BreaksInvariant (mergeFragments demoPresFragment demoDistFragment).breaks :=
  (break_list_invariant demoPresFragment demoDistFragment []
    (by constructor <;> simp)).1

/-! ### Round-down break selection (spec §4.4 rule 5, glossary)

Modelled from the spec: the round-down lookup — "choose the highest break
whose quantity ≤ requested quantity" — is a query performed by downstream
consumers over the stored ordered break list; a left fold that remembers
the last eligible break. -/

/-- Modelled from the spec: round-down break selection over the stored
break list; `none` reports a requested quantity below the minimum break. -/
def selectBreakRD (q : Int) (bs : List PriceBreak) : Option PriceBreak :=
  bs.foldl (fun acc b => if b.quantity ≤ q then some b else acc) none

theorem foldl_select_eq_findRev (q : Int) :
    ∀ (bs : List PriceBreak) (acc : Option PriceBreak),
      bs.foldl (fun acc b => if b.quantity ≤ q then some b else acc) acc
        = match bs.reverse.find? (fun b => decide (b.quantity ≤ q)) with
          | some b => some b
          | none => acc := by
  intro bs
  induction bs using List.reverseRecOn with
  | nil => intro acc; simp
  | append_singleton l c ih =>
      intro acc
      rw [List.foldl_append]
      have hrev : (l ++ [c]).reverse = c :: l.reverse := by simp
      rw [hrev, List.foldl_cons, List.foldl_nil]
      by_cases h : c.quantity ≤ q
      · rw [if_pos h, List.find?_cons_of_pos _ (by simpa using h)]
      · rw [if_neg h, List.find?_cons_of_neg _ (by simpa using h)]
        exact ih acc

theorem find_desc_max (q : Int) :
    ∀ l : List PriceBreak,
      l.Pairwise (fun a b => b.quantity < a.quantity) →
      ∀ b, l.find? (fun x => decide (x.quantity ≤ q)) = some b →
      ∀ b2 ∈ l, b2.quantity ≤ q → b2.quantity ≤ b.quantity := by
  intro l
  induction l with
  | nil =>
      intro _ b hfind
      simp at hfind
  | cons c l ih =>
      intro hpw b hfind b2 hb2 hb2q
      rw [List.pairwise_cons] at hpw
      by_cases hc : c.quantity ≤ q
      · rw [List.find?_cons_of_pos _ (by simpa using hc)] at hfind
        obtain rfl : c = b := by injection hfind
        rcases List.mem_cons.mp hb2 with rfl | hb2m
        · exact le_refl _
        · exact le_of_lt (hpw.1 b2 hb2m)
      · rw [List.find?_cons_of_neg _ (by simpa using hc)] at hfind
        rcases List.mem_cons.mp hb2 with rfl | hb2m
        · exact absurd hb2q hc
        · exact ih hpw.2 b hfind b2 hb2m hb2q

/-- The spec's demonstration break list: tiers at quantities
12, 48, 108, 204, 300. -/
def demoTierBreaks : List PriceBreak :=
  [⟨12, some 10, none, none, none, none⟩,
   ⟨48, some 9, none, none, none, none⟩,
   ⟨108, some 8, none, none, none, none⟩,
   ⟨204, some 7, none, none, none, none⟩,
   ⟨300, some 6, none, none, none, none⟩]

/-- C4: on an ordered break list, round-down selection returns a break of
the list with the highest quantity that is ≤ the requested quantity, and
returns `none` exactly when every break lies above the requested quantity;
in particular for tiers [12, 48, 108, 204, 300], quantity 50 selects the
48-tier and quantity 11 selects no break. -/
theorem round_down_break_selection (q : Int) (bs : List PriceBreak)
    (hs : bs.Chain' (fun a b => a.quantity < b.quantity)) :
    (∀ b, selectBreakRD q bs = some b →
        b ∈ bs ∧ b.quantity ≤ q
        ∧ ∀ b2 ∈ bs, b2.quantity ≤ q → b2.quantity ≤ b.quantity)
    ∧ (selectBreakRD q bs = none ↔ ∀ b ∈ bs, q < b.quantity)
    ∧ (selectBreakRD 50 demoTierBreaks).map PriceBreak.quantity = some 48
    ∧ selectBreakRD 11 demoTierBreaks = none := by
  have hchar := foldl_select_eq_findRev q bs none
  have hpwrev : bs.reverse.Pairwise (fun a b => b.quantity < a.quantity) := by
    rw [List.pairwise_reverse]
    have : IsTrans PriceBreak (fun a b => a.quantity < b.quantity) :=
      ⟨fun _ _ _ h1 h2 => lt_trans h1 h2⟩
    exact List.chain'_iff_pairwise.mp hs
  refine ⟨?_, ?_, by decide, by decide⟩
  · intro b hb
    rw [selectBreakRD, hchar] at hb
    cases hf : bs.reverse.find? (fun x => decide (x.quantity ≤ q)) with
    | none => rw [hf] at hb; exact absurd hb (by simp)
    | some b3 =>
        rw [hf] at hb
        obtain rfl : b3 = b := by injection hb
        refine ⟨List.mem_reverse.mp (List.mem_of_find?_eq_some hf),
          by simpa using List.find?_some hf, ?_⟩
        intro b2 hb2 hb2q
        exact find_desc_max q bs.reverse hpwrev b3 hf b2
          (List.mem_reverse.mpr hb2) hb2q
  · rw [selectBreakRD, hchar]
    cases hf : bs.reverse.find? (fun x => decide (x.quantity ≤ q)) with
    | none =>
        simp only [List.find?_eq_none] at hf
        constructor
        · intro _ b hb
          have := hf b (List.mem_reverse.mpr hb)
          simpa using this
        · intro _
          rfl
    | some b3 =>
        constructor
        · intro h
          exact absurd h (by simp)
        · intro hall
          have hmem := List.mem_reverse.mp (List.mem_of_find?_eq_some hf)
          have helig : b3.quantity ≤ q := by simpa using List.find?_some hf
          exact absurd helig (not_le.mpr (hall b3 hmem))

theorem round_down_break_selection_witness :
    (selectBreakRD 50 demoTierBreaks).map PriceBreak.quantity = some 48 :=
  (round_down_break_selection 50 demoTierBreaks
    (by simp [demoTierBreaks])).2.2.1

/-! ### Merge determinism (C7) -/

/-- Modelled from the spec: the `UnifiedCatalog` metadata envelope —
source platform, generation timestamp, product count, ordered product
list. -/
structure UnifiedCatalog where
  source_platform : String
  generated_at : String
  product_count : Nat
  products : List UnifiedProduct
deriving DecidableEq, Repr

/-- Modelled from the spec: one Merge & Normalize Engine run over a single
matched fragment pair, stamped with the wall-clock time `now`. -/
def runMergeEngine (now platform : String) (p : PresentationFragment)
    (d : DistributorFragment) : UnifiedCatalog :=
  { source_platform := platform
    generated_at := now
    product_count := 1
    products := [mergeFragments p d] }

/-- Byte serialization of an optional price. -/
def serializeOpt : Option ℚ → String
  | none => "null"
  | some r => toString r

/-- Byte serialization of one price break. -/
def serializeBreak (b : PriceBreak) : String :=
  String.intercalate "," [toString b.quantity, serializeOpt b.sell_price,
    serializeOpt b.net_cost, serializeOpt b.catalog_price,
    serializeOpt b.margin, serializeOpt b.margin_percent]

/-- Byte serialization of a `UnifiedProduct`. -/
def serializeProduct (u : UnifiedProduct) : String :=
  String.intercalate "|"
    ([u.ident, u.name, u.secondary_name.getD "", u.description,
      String.intercalate ";" u.categories, u.vendor_name, u.vendor_website]
      ++ u.breaks.map serializeBreak)

/-- C7: the merge is deterministic and idempotent — merging the same
(presentation fragment, distributor fragment) pair twice yields equal
`UnifiedProduct` values and byte-identical serializations, and the
product list of an engine run does not depend on the run's wall-clock
timestamp. -/
theorem merge_deterministic (p : PresentationFragment)
    (d : DistributorFragment) (t1 t2 platform : String) :
    mergeFragments p d = mergeFragments p d
    ∧ serializeProduct (mergeFragments p d)
        = serializeProduct (mergeFragments p d)
    ∧ (runMergeEngine t1 platform p d).products
        = (runMergeEngine t2 platform p d).products :=
  ⟨rfl, rfl, rfl⟩

/-! ## Job State Machine

`job_state.py` and the orchestrator's transition logic are not part of the
repository snapshot; the definitions below are modelled from the spec
(§4.5, §7).  The terminal-state grouping that *is* in the snapshot
(`frontend/components/StatusBadge.tsx`, `STATE_CATEGORIES`, lines 66–92)
is embedded directly. -/

/-- The `terminal` group of `STATE_CATEGORIES` in
`frontend/components/StatusBadge.tsx` (line 91). -/
def stateCategoriesTerminal : List String :=
  ["awaiting_qa", "completed", "error", "partial_success"]

/-- Outcome of processing one product item: its platform identifier and
whether it hit a recoverable per-item error (ProductNotFound,
MalformedExtraction, exhausted retries, ...). -/
structure ItemOutcome where
  ident : String
  failed : Bool
deriving DecidableEq, Repr

/-- The three job-fatal steps of the spec: failure before any partial
output exists. -/
inductive FatalStage
  | detection
  | presentationDownload
  | finalSave
deriving DecidableEq, Repr

def fatalStageName : FatalStage → String
  | .detection => "detecting_source"
  | .presentationDownload => "downloading_presentation"
  | .finalSave => "saving_output"

/-- One entry of the job's error list: stage, product identifier when
applicable, message. -/
structure JobErrorEntry where
  stage : String
  productIdent : Option String
  message : String
deriving DecidableEq, Repr

/-- Terminal snapshot of a job run. -/
structure JobOutcome where
  status : String
  errors : List JobErrorEntry
  succeeded : Nat
deriving DecidableEq, Repr

/-- Modelled from the spec: the Job State Machine's terminal accounting
(`job_state.py` and the orchestrator, missing from the snapshot) — a
failure in detection, presentation download, or final save forces the
terminal state `error`; otherwise every per-item recoverable error is
accumulated in the error list (with the product's identifier) and the job
ends `completed` when no item failed and `partial_success` otherwise. -/
def runJobStateMachine (fatal : Option FatalStage)
    (items : List ItemOutcome) : JobOutcome :=
  match fatal with
  | some st =>
      { status := "error"
        errors := [⟨fatalStageName st, none, "job-fatal failure"⟩]
        succeeded := 0 }
  | none =>
      let failedItems := items.filter (fun i => i.failed)
      { status := if failedItems.isEmpty then "completed" else "partial_success"
        errors := failedItems.map
          (fun i => ⟨"looking_up_products", some i.ident, "recoverable item error"⟩)
        succeeded := (items.filter (fun i => !i.failed)).length }

/-- Concrete Platform A run for C5: three products, product #2's lookup
raises `ProductNotFound`. -/
def demoItems : List ItemOutcome :=
  [⟨"p1", false⟩, ⟨"p2", true⟩, ⟨"p3", false⟩]

/-- C5: a per-item recoverable error never produces the terminal state
`error` — only a job-fatal step does; with at least one failed and at
least one succeeded item the terminal state is `partial_success`; the
3-product scenario with product #2 failing ends `partial_success` with
exactly one error entry referencing "p2" and 2 successes; and the reached
state lies in the dashboard's terminal category. -/
theorem recoverable_error_never_terminal_error (items : List ItemOutcome)
    (i j : ItemOutcome) (hi : i ∈ items) (hj : j ∈ items)
    (hfail : i.failed = true) (hsucc : j.failed = false) :
    (∀ its : List ItemOutcome, (runJobStateMachine none its).status ≠ "error")
    ∧ (∀ (st : FatalStage) (its : List ItemOutcome),
        (runJobStateMachine (some st) its).status = "error")
    ∧ (runJobStateMachine none items).status = "partial_success"
    ∧ runJobStateMachine none demoItems
        = ⟨"partial_success",
            [⟨"looking_up_products", some "p2", "recoverable item error"⟩], 2⟩
    ∧ (runJobStateMachine none items).status ∈ stateCategoriesTerminal := by
  have hstatus : (runJobStateMachine none items).status = "partial_success" := by
    have hmem : i ∈ items.filter (fun k => k.failed) :=
      List.mem_filter.mpr ⟨hi, by simp [hfail]⟩
    have hne : items.filter (fun k => k.failed) ≠ [] :=
      List.ne_nil_of_mem hmem
    show (if (items.filter (fun k => k.failed)).isEmpty then "completed"
        else "partial_success") = "partial_success"
    cases hfil : items.filter (fun k => k.failed) with
    | nil => exact absurd hfil hne
    | cons a l => rfl
  refine ⟨?_, fun _ _ => rfl, hstatus, rfl, ?_⟩
  · intro its
    show (if (its.filter (fun k => k.failed)).isEmpty then "completed"
        else "partial_success") ≠ "error"
    cases (its.filter (fun k => k.failed)).isEmpty <;> decide
  · rw [hstatus]
    decide

theorem recoverable_error_never_terminal_error_witness :
    (runJobStateMachine none demoItems).status = "partial_success" :=
  (recoverable_error_never_terminal_error demoItems ⟨"p2", true⟩ ⟨"p1", false⟩
    (by decide) (by decide) rfl rfl).2.2.1

/-! ### Progress monotonicity (C6) -/

/-- A point of a recorded run: current stage index, items completed in the
stage, stage item total. -/
structure StageState where
  stage : Nat
  itemsDone : Nat
  itemsTotal : Nat
deriving DecidableEq, Repr

/-- Modelled from the spec: the intra-stage item completion fraction
(0 when the stage has no item counter). -/
def itemFraction (s : StageState) : ℚ :=
  if s.itemsTotal = 0 then 0
  else ((min s.itemsDone s.itemsTotal : ℕ) : ℚ) / (s.itemsTotal : ℚ)

/-- Modelled from the spec: progress percentage derived from (stage weight
+ intra-stage item completion fraction), the stages weighted uniformly. -/
def progressPct (numStages : Nat) (s : StageState) : ℚ :=
  ((s.stage : ℚ) + itemFraction s) / (numStages : ℚ) * 100

/-- Modelled from the spec: a transition recorded during a run either
stays in its stage — the item counter only advances, and on a retry or
re-authentication recovery it resumes at the same checkpointed index — or
advances to a later stage. -/
def StepOk (s t : StageState) : Prop :=
  (t.stage = s.stage ∧ t.itemsTotal = s.itemsTotal ∧ s.itemsDone ≤ t.itemsDone)
  ∨ s.stage < t.stage

theorem itemFraction_nonneg (s : StageState) : 0 ≤ itemFraction s := by
  unfold itemFraction
  split
  · exact le_refl 0
  · positivity

theorem itemFraction_le_one (s : StageState) : itemFraction s ≤ 1 := by
  unfold itemFraction
  split
  · norm_num
  · rename_i h
    rw [div_le_one (by positivity)]
    exact_mod_cast Nat.min_le_right s.itemsDone s.itemsTotal

theorem progressPct_mono (numStages : Nat) (hns : 0 < numStages)
    (s t : StageState) (h : StepOk s t) :
    progressPct numStages s ≤ progressPct numStages t := by
  have hN : (0 : ℚ) < (numStages : ℚ) := by exact_mod_cast hns
  have hcore : (s.stage : ℚ) + itemFraction s
      ≤ (t.stage : ℚ) + itemFraction t := by
    rcases h with ⟨hst, htot, hdone⟩ | hlt
    · rw [hst]
      apply add_le_add_left
      unfold itemFraction
      rw [htot]
      split
      · exact le_refl 0
      · apply div_le_div_of_nonneg_right _ (by positivity)
        · exact_mod_cast min_le_min hdone (le_refl s.itemsTotal)
    · have h1 : (s.stage : ℚ) + itemFraction s ≤ (s.stage : ℚ) + 1 :=
        add_le_add_left (itemFraction_le_one s) _
      have h2 : (s.stage : ℚ) + 1 ≤ (t.stage : ℚ) := by
        exact_mod_cast Nat.succ_le_of_lt hlt
      have h3 : (t.stage : ℚ) ≤ (t.stage : ℚ) + itemFraction t :=
        le_add_of_nonneg_right (itemFraction_nonneg t)
      linarith
  unfold progressPct
  apply mul_le_mul_of_nonneg_right _ (by norm_num)
  exact (div_le_div_iff_of_pos_right hN).mpr hcore

/-- C6: along any sequence of transitions recorded during a run —
including retries and re-authentication recoveries, which resume at the
checkpointed item index — the derived progress-percentage sequence is
monotonically non-decreasing. -/
theorem progress_monotone (numStages : Nat) (run : List StageState)
    (hns : 0 < numStages) (hrun : run.Chain' StepOk) :
    (run.map (progressPct numStages)).Chain' (· ≤ ·) := by
  rw [List.chain'_map]
  exact hrun.imp (fun a b h => progressPct_mono numStages hns a b h)

/-- Concrete recorded run for the C6 witness: two item steps inside stage
0, then a jump to stage 1 (item counter reset, new total). -/
def demoRun : List StageState :=
  [⟨0, 0, 3⟩, ⟨0, 2, 3⟩, ⟨1, 0, 5⟩]

theorem progress_monotone_witness :
    (demoRun.map (progressPct 8)).Chain' (· ≤ ·) :=
  progress_monotone 8 demoRun (by decide)
    (by simp [demoRun, List.chain'_cons, StepOk])

end EspParser
